
import Mathlib

/-!
Verification development for the cutting-plane GDP reformulation in
`pyomo/gdp/plugins/cuttingplane.py`.

Modelling conventions: numeric values are rationals; a solver invocation
is an oracle supplying a termination status and the variable values and
objective value it populates; the candidate point, the separating point
and the target parameters are vectors indexed by the list of non-fixed
variables (`Fin n → ℚ`); a generated cut is an affine inequality
`0 ≤ body` over the linear-relaxation variables (both generators in the
source emit constraints of the form `lb <= expr`); fallible code is
modelled in `Except PyError`.
-/

namespace CuttingPlane

/-- Solver termination statuses distinguished by `verify_successful_solve`
(`pyomo.gdp.util` constants `NORMAL`, `INFEASIBLE`, `NONOPTIMAL`). -/
inductive SolveStatus
  | NORMAL
  | INFEASIBLE
  | NONOPTIMAL
deriving DecidableEq

/-- Objective values as tracked by the separation driver: `prev_obj` is
initialized to `float("inf")` (line 643) and holds a finite value
afterwards. -/
inductive ObjVal
  | fin (q : ℚ)
  | pinf
deriving DecidableEq

/-- Subtraction `obj_diff = prev_obj - rBigM_objVal` (line 695). -/
def ObjVal.sub : ObjVal → ℚ → ObjVal
  | ObjVal.pinf, _ => ObjVal.pinf
  | ObjVal.fin p, b => ObjVal.fin (p - b)

/-- Model of `math.isinf` on the tracked objective difference. -/
def ObjVal.isinf : ObjVal → Bool
  | ObjVal.pinf => true
  | ObjVal.fin _ => false

/-- Name of the undefined variable referenced at line 273 of the source. -/
def origObjName : String :=
  "orig_obj"

/-- Exceptions the modelled code can raise.  The only raise site in the
modelled fragment is the reference to the undefined name `orig_obj` at
line 273 of the source. -/
inductive PyError
  | nameError (name : String)
deriving DecidableEq

instance instDecidableEqExcept {ε α : Type} [DecidableEq ε] [DecidableEq α] :
    DecidableEq (Except ε α) := fun a b =>
  match a, b with
  | Except.ok x, Except.ok y => decidable_of_iff (x = y) (by simp)
  | Except.ok _, Except.error _ => isFalse (by simp)
  | Except.error _, Except.ok _ => isFalse (by simp)
  | Except.error e, Except.error f => decidable_of_iff (e = f) (by simp)

/-- An affine cut `0 ≤ body` over the `n` linear-relaxation variables:
`body y = (Finset.univ.sum fun i => coeffs i * y i) + const`.  Both cut
generators in the source return constraints of the form `lb <= expr`;
normalizing `lb` into the constant, every cut is of this shape. -/
structure AffCut (n : Nat) where
  coeffs : Fin n → ℚ
  const : ℚ
deriving DecidableEq

/-- Value of the cut body at the point `y`. -/
def AffCut.body {n : Nat} (c : AffCut n) (y : Fin n → ℚ) : ℚ :=
  (Finset.univ.sum fun i => c.coeffs i * y i) + c.const

/-- Adding the scalar `p` to the body of a cut (the effect of
`cut._body += p` in the source, lines 279 and 286). -/
def paddedCut {n : Nat} (c : AffCut n) (p : ℚ) : AffCut n :=
  { c with const := c.const + p }

/-- The normal-vector cut built at lines 240-242:
`cutexpr += (x_hull.value - x_star.value) * (x_rbigm - x_hull.value)`,
as an affine function of the linear-relaxation variables.  `xhull` is the
vector of hull-variable values (the separating point), `xstar` the vector
of target parameter values (the candidate point). -/
def nvCut {n : Nat} (xhull xstar : Fin n → ℚ) : AffCut n :=
  { coeffs := fun i => xhull i - xstar i
    const := - Finset.univ.sum fun i => (xhull i - xstar i) * xhull i }

/-- Model of `create_cuts_normal_vector` (lines 233-247).  `xrbigm` holds the
current values of the linear-relaxation variables (at the call site in the
driver these are the solver-populated values of the last rBigM solve);
`value(cutexpr)` evaluates the cut body at those values.  The `TOL`
parameter receives the configured `cut_filtering_threshold`.  Returns the
singleton list `[cutexpr >= 0]` when the check passes, `None` otherwise. -/
def create_cuts_normal_vector {n : Nat} (xrbigm xhull xstar : Fin n → ℚ)
    (TOL : ℚ) : Option (List (AffCut n)) :=
  let cutexpr := nvCut xhull xstar
  if AffCut.body cutexpr xrbigm < -TOL then some [cutexpr] else none

/-- A translated projected constraint `lb <= expr` as seen by the selection
loop at the end of `create_cuts_fme` (lines 208-231): all the variable
values are fixed at the candidate point `x*` when the loop runs, so only
the value of each side there matters for the selection. -/
structure FCut where
  lb : ℚ
  bodyAtStar : ℚ
deriving DecidableEq

/-- Violation margin `cut_off = value(cut.args[0]) - value(cut.args[1])`
(line 223): lower bound value minus body value. -/
def FCut.margin (c : FCut) : ℚ := c.lb - c.bodyAtStar

/-- One iteration of the selection loop of `create_cuts_fme`
(lines 210-227).  The accumulator is the pair `(best, best_cut)`,
initialized to `(0, None)`.  A constraint satisfied at `x*`
(`value(cut)` truthy, i.e. `lb <= body`) is skipped; otherwise the
constraint replaces the incumbent when
`cut_off > cut_threshold and cut_off > best`. -/
def fmeStep (cut_threshold : ℚ) (acc : ℚ × Option FCut) (cut : FCut) :
    ℚ × Option FCut :=
  if cut.lb ≤ cut.bodyAtStar then acc
  else if cut_threshold < cut.margin ∧ acc.1 < cut.margin then
    (cut.margin, some cut)
  else acc

/-- Model of the cut-selection phase of `create_cuts_fme` (lines 208-231):
the translated projected constraints are scanned in descending index order
(`sorted(range(len(cuts)), reverse=True)`), and the single best violated
constraint is returned, or `None` when no candidate qualifies.  The
upstream phases of `create_cuts_fme` (tight-constraint collection,
differentiation, Fourier-Motzkin elimination, translation) call external
collaborators (spec section 6) and enter here only through the list of
translated constraints. -/
def create_cuts_fme_select (cuts : List FCut) (cut_threshold : ℚ) :
    Option (List FCut) :=
  match (List.foldl (fmeStep cut_threshold) (0, none) cuts.reverse).2 with
  | some best_cut => some [best_cut]
  | none => none

/-- Model of `back_off_constraint_with_calculated_cut_violation`
(lines 253-281).  The auxiliary solve is the oracle pair
`(status, objVal)`: `objVal` is the value of
`transBlock_rHull.infeasibility_objective` populated by the solver.  That
objective is `Objective(expr=<clone of cut.body>)` (lines 263-265), and a
Pyomo `Objective` defaults to minimization, so a successful solve reports
the minimal body value over the hull relaxation.  On an abnormal solve the
source executes
`_restore_objective(instance_rHull, transBlock_rHull, orig_obj)` where the
name `orig_obj` is undefined, raising `NameError` (line 273).  On the
normal path it computes `val = objVal - TOL`, pads the stored cut body by
`abs(val)` when `val <= 0`, and restores the separation objective; the
returned flag records that the separation objective was reactivated. -/
def back_off_constraint_with_calculated_cut_violation {n : Nat}
    (status : SolveStatus) (objVal TOL : ℚ) (cut : AffCut n) :
    Except PyError (AffCut n × Bool) :=
  if status ≠ SolveStatus.NORMAL then
    Except.error (PyError.nameError origObjName)
  else
    let val := objVal - TOL
    if val ≤ 0 then Except.ok (paddedCut cut |val|, true)
    else Except.ok (cut, true)

/-- Model of `back_off_constraint_by_fixed_tolerance` (lines 283-286):
`cut._body += TOL`. -/
def back_off_constraint_by_fixed_tolerance {n : Nat} (TOL : ℚ)
    (cut : AffCut n) : AffCut n :=
  { cut with const := cut.const + TOL }

/-- The objective-improvement test of the driver (lines 695-698):
`obj_diff = prev_obj - rBigM_objVal` and
`improving = math.isinf(obj_diff) or (abs(obj_diff) > epsilon if
abs(rBigM_objVal) < 1 else abs(obj_diff / prev_obj) > epsilon)`.
The second operand of `or` is evaluated only when `obj_diff` is finite,
that is, only when `prev` is finite (Python `or` short-circuits). -/
def improvingUpdate (prev : ObjVal) (cur eps : ℚ) : Bool :=
  (prev.sub cur).isinf ||
    (match prev with
     | ObjVal.pinf => false
     | ObjVal.fin p =>
       if |cur| < 1 then decide (eps < |p - cur|)
       else decide (eps < |(p - cur) / p|))

/-- The improvement condition exactly as the spec sentence states it
(section 4.2 step 3): improvement is infinite, OR |current| < 1 and
|improvement| > eps, OR |current| >= 1 and |improvement / previous| > eps. -/
def ImprovingSpec (prev : ObjVal) (cur eps : ℚ) : Prop :=
  (prev.sub cur).isinf = true ∨
    (∃ p : ℚ, prev = ObjVal.fin p ∧
      ((|cur| < 1 ∧ eps < |p - cur|) ∨ (1 ≤ |cur| ∧ eps < |(p - cur) / p|)))

/-- Value of the separation objective (lines 767-769):
`obj_expr += (x_hull - x_star)**2` summed over the correspondence
triples. -/
def sepObjValue {n : Nat} (xhull xstar : Fin n → ℚ) : ℚ :=
  Finset.univ.sum fun i => (xhull i - xstar i) ^ 2

/-- Convexity of a region of candidate/separating points, stated over ℚ. -/
def ConvexQ {n : Nat} (K : Set (Fin n → ℚ)) : Prop :=
  ∀ x ∈ K, ∀ y ∈ K, ∀ t : ℚ, 0 ≤ t → t ≤ 1 →
    (fun i => (1 - t) * x i + t * y i) ∈ K

/-- The point `xhat` solves the separation subproblem exactly: it lies in
the hull-relaxation feasible region `K` and minimizes the separation
objective against the target point `xstar` over `K`. -/
def SepMinimizer {n : Nat} (K : Set (Fin n → ℚ)) (xstar xhat : Fin n → ℚ) :
    Prop :=
  xhat ∈ K ∧ ∀ z ∈ K, sepObjValue xhat xstar ≤ sepObjValue z xstar

/-- Configuration options of the transformation that the modelled fragment
reads (spec section 6): the minimum-improvement threshold `epsilon`, the
`cut_filtering_threshold`, the `back_off_problem_tolerance`, and whether
`post_process_cut` is set (the default calculated back-off) or `None`. -/
structure Config where
  eps : ℚ
  cutThreshold : ℚ
  backoffTOL : ℚ
  postProcess : Bool
deriving DecidableEq

/-- External inputs consumed by one round of the driver loop: the rBigM
solve (status, populated variable values, objective value), the hull
separation solve (status, populated hull-variable values), and the
auxiliary back-off solve used if a cut is added this round. -/
structure RoundOracle (n : Nat) where
  rBigM_status : SolveStatus
  rBigM_point : Fin n → ℚ
  rBigM_objVal : ℚ
  hull_status : SolveStatus
  hull_point : Fin n → ℚ
  backoff_status : SolveStatus
  backoff_objVal : ℚ
deriving DecidableEq

/-- Mutable state of `_generate_cuttingplanes` across rounds: `prev_obj`,
the `improving` flag, the cut store `transBlock_rBigM.cuts` (append-only
indexed collection, modelled as the list of cuts in index order), the
target parameters `xstar` and the hull-variable values. -/
structure LoopState (n : Nat) where
  prev_obj : ObjVal
  improving : Bool
  cuts : List (AffCut n)
  xstar : Fin n → ℚ
  xhull : Fin n → ℚ
deriving DecidableEq

/-- Driver state on entry to the loop (lines 642-645): `improving = True`,
`prev_obj = float("inf")`, empty cut store; the target parameters start
unset (modelled as zero, they are overwritten before first use). -/
def initState (n : Nat) : LoopState n :=
  { prev_obj := ObjVal.pinf
    improving := true
    cuts := []
    xstar := fun _ => 0
    xhull := fun _ => 0 }

/-- Exit condition of the driver loop, following the state machine of spec
section 4.2.  `ITERATING` marks a state in which the loop has not exited
(in particular the state returned when the supplied oracle rounds are
exhausted with the loop still running). -/
inductive LoopExit
  | ITERATING
  | CONVERGED
  | STALLED
  | SOLVE_FAILED
deriving DecidableEq

/-- The per-round cut-appending loop (lines 735-746): each cut returned by
the generator is appended to the store at the next free index and, when
`post_process_cut` is configured, immediately post-processed in place by
the calculated back-off using this round's auxiliary solve oracle. -/
def appendProcessed {n : Nat} (cfg : Config) (o : RoundOracle n) :
    List (AffCut n) → List (AffCut n) → Except PyError (List (AffCut n))
  | store, [] => Except.ok store
  | store, c :: cs =>
    if cfg.postProcess then
      match back_off_constraint_with_calculated_cut_violation
          o.backoff_status o.backoff_objVal cfg.backoffTOL c with
      | Except.error e => Except.error e
      | Except.ok (c2, _) => appendProcessed cfg o (store ++ [c2]) cs
    else appendProcessed cfg o (store ++ [c]) cs

/-- One round of `_generate_cuttingplanes` (lines 669-748), with the
default `create_cuts_normal_vector` generator.  Faithful points to note:

* line 671-676: an abnormal rBigM solve exits the loop at once;
* lines 684-687: the rBigM solution is copied into the target parameters
  and used to initialize the hull variables;
* lines 695-698: the improvement flag is recomputed before the hull solve;
* line 701 discards the result object of the hull separation solve, so the
  check at line 702 re-examines the stale rBigM `results` object, which at
  that point is known to be `NORMAL`: the modelled branch repeats the test
  of `o.rBigM_status` instead of consulting `o.hull_status`, exactly as
  the source does;
* line 719: convergence test on `abs(value(separation_objective))`;
* line 732: `if cuts is None or not improving: break`;
* lines 735-746: cuts are appended and post-processed;
* line 748: `prev_obj = rBigM_objVal`. -/
def loopStep {n : Nat} (cfg : Config) (o : RoundOracle n) (s : LoopState n) :
    Except PyError (LoopState n × LoopExit) :=
  if o.rBigM_status ≠ SolveStatus.NORMAL then
    Except.ok (s, LoopExit.SOLVE_FAILED)
  else
    let improving := improvingUpdate s.prev_obj o.rBigM_objVal cfg.eps
    let s2 : LoopState n :=
      { s with
        xstar := o.rBigM_point
        xhull := o.hull_point
        improving := improving }
    if o.rBigM_status ≠ SolveStatus.NORMAL then
      Except.ok (s2, LoopExit.SOLVE_FAILED)
    else if |sepObjValue o.hull_point o.rBigM_point| < cfg.eps then
      Except.ok (s2, LoopExit.CONVERGED)
    else
      match create_cuts_normal_vector o.rBigM_point o.hull_point
          o.rBigM_point cfg.cutThreshold with
      | none => Except.ok (s2, LoopExit.STALLED)
      | some cs =>
        if improving = false then Except.ok (s2, LoopExit.STALLED)
        else
          match appendProcessed cfg o s2.cuts cs with
          | Except.error e => Except.error e
          | Except.ok store =>
            Except.ok
              ({ s2 with cuts := store, prev_obj := ObjVal.fin o.rBigM_objVal },
                LoopExit.ITERATING)

/-- The driver loop `while (improving):` (line 669), consuming one oracle
per round.  When the oracle list is exhausted the current state is
returned still `ITERATING`. -/
def runLoop {n : Nat} (cfg : Config) :
    List (RoundOracle n) → LoopState n → Except PyError (LoopState n × LoopExit)
  | [], s => Except.ok (s, LoopExit.ITERATING)
  | o :: os, s =>
    if s.improving = false then Except.ok (s, LoopExit.STALLED)
    else
      match loopStep cfg o s with
      | Except.error e => Except.error e
      | Except.ok (s1, k) =>
        if k = LoopExit.ITERATING then runLoop cfg os s1
        else Except.ok (s1, k)

/-- The hull-relaxation construction step of `_setup_subproblems`
(lines 519-520):

`tighter_instance = tighten_relaxation_callback(instance)`
`instance_rHull = hullRelaxation.create_using(instance)`

`create_using` is the external hull reformulation; the callback result is
bound but never used. -/
def setup_hull_relaxation {α β : Type} (create_using : α → β)
    (tighten_relaxation_callback : α → α) (inst : α) : β :=
  let _tighter_instance := tighten_relaxation_callback inst
  create_using inst

/-- Invariant of the selection fold: `processed` is the list of constraints
already scanned; while no incumbent is set, every violated processed
constraint has margin at most the threshold; an incumbent is a violated
processed constraint whose margin is the running maximum, exceeds the
threshold, and dominates every violated processed constraint. -/
def FmeInv (threshold : ℚ) (processed : List FCut) (acc : ℚ × Option FCut) :
    Prop :=
  (acc.2 = none → acc.1 = 0 ∧
    ∀ c ∈ processed, c.bodyAtStar < c.lb → c.margin ≤ threshold) ∧
  (∀ b, acc.2 = some b → b ∈ processed ∧ b.bodyAtStar < b.lb ∧
    threshold < b.margin ∧ acc.1 = b.margin ∧
    ∀ c ∈ processed, c.bodyAtStar < c.lb → c.margin ≤ b.margin)

/-- Witness configuration for claim C8: a round with a normal rBigM solve,
previous objective `0`, current objective `0` (no improvement), and a
separating point at distance `1` from the candidate. -/
def oW8 : RoundOracle 1 :=
  { rBigM_status := SolveStatus.NORMAL
    rBigM_point := fun _ => 0
    rBigM_objVal := 0
    hull_status := SolveStatus.NORMAL
    hull_point := fun _ => 1
    backoff_status := SolveStatus.NORMAL
    backoff_objVal := 0 }

/-- Witness loop state for claim C8. -/
def sW8 : LoopState 1 :=
  { prev_obj := ObjVal.fin 0
    improving := true
    cuts := []
    xstar := fun _ => 0
    xhull := fun _ => 0 }

/-- Witness configuration record for claim C8. -/
def cfgW8 : Config :=
  { eps := 1/100
    cutThreshold := 1/100
    backoffTOL := 1/100000000
    postProcess := true }

/-- Witness oracle for claim C5: separating point equal to the candidate
point, separation distance `0`. -/
def oW5 : RoundOracle 1 :=
  { rBigM_status := SolveStatus.NORMAL
    rBigM_point := fun _ => 1
    rBigM_objVal := 7
    hull_status := SolveStatus.NORMAL
    hull_point := fun _ => 1
    backoff_status := SolveStatus.NORMAL
    backoff_objVal := 0 }

/-- Witness configuration record for claim C5. -/
def cfgW5 : Config :=
  { eps := 1/2
    cutThreshold := 1/100
    backoffTOL := 1/100000000
    postProcess := true }

/-- Witness exit state for claim C5. -/
def resW5 : LoopState 1 :=
  { initState 1 with
    xstar := oW5.rBigM_point
    xhull := oW5.hull_point
    improving := improvingUpdate (initState 1).prev_obj oW5.rBigM_objVal
      cfgW5.eps }

/-- Round oracle exhibiting the claim C2 defect: the rBigM solve is normal
but the hull separation solve terminates abnormally. -/
def oC2 : RoundOracle 1 :=
  { rBigM_status := SolveStatus.NORMAL
    rBigM_point := fun _ => 1
    rBigM_objVal := 0
    hull_status := SolveStatus.NONOPTIMAL
    hull_point := fun _ => 0
    backoff_status := SolveStatus.NORMAL
    backoff_objVal := 0 }

/-- Configuration for the claim C2 round. -/
def cfgC2 : Config :=
  { eps := 1/2
    cutThreshold := 1/100
    backoffTOL := 1/100000000
    postProcess := false }

/-- State after the claim C2 round. -/
def resC2 : LoopState 1 :=
  { prev_obj := ObjVal.fin 0
    improving := true
    cuts := [{ coeffs := fun _ => -1, const := 0 }]
    xstar := fun _ => 1
    xhull := fun _ => 0 }

/-- Witness oracle for claim C9: a normal round that generates one cut and
pads it by `1/2` via the calculated back-off. -/
def oW9 : RoundOracle 1 :=
  { rBigM_status := SolveStatus.NORMAL
    rBigM_point := fun _ => 1
    rBigM_objVal := 3
    hull_status := SolveStatus.NORMAL
    hull_point := fun _ => 0
    backoff_status := SolveStatus.NORMAL
    backoff_objVal := 0 }

/-- Witness configuration record for claim C9. -/
def cfgW9 : Config :=
  { eps := 1/2
    cutThreshold := 1/100
    backoffTOL := 1/2
    postProcess := true }

/-- Witness start state for claim C9, holding one pre-existing cut. -/
def sW9 : LoopState 1 :=
  { prev_obj := ObjVal.pinf
    improving := true
    cuts := [{ coeffs := fun _ => 3, const := 7 }]
    xstar := fun _ => 0
    xhull := fun _ => 0 }

/-- Witness final state for claim C9: the pre-existing cut is untouched and
the new padded cut sits at the next index. -/
def resW9 : LoopState 1 :=
  { prev_obj := ObjVal.fin 3
    improving := true
    cuts := [{ coeffs := fun _ => 3, const := 7 },
      { coeffs := fun _ => -1, const := 1/2 }]
    xstar := fun _ => 1
    xhull := fun _ => 0 }

/-- Witness hull point for claim C1. -/
def z0W : Fin 1 → ℚ := fun _ => 0

/-- Witness hull-relaxation feasible region for claim C1: the single point
`z0W` (trivially convex). -/
def KW : Set (Fin 1 → ℚ) := {z0W}

/-- Witness oracle for claim C1: candidate `x* = 1`, exact separating point
`xhat = 0`, normal back-off solve with positive slack (no pad). -/
def oW1 : RoundOracle 1 :=
  { rBigM_status := SolveStatus.NORMAL
    rBigM_point := fun _ => 1
    rBigM_objVal := 0
    hull_status := SolveStatus.NORMAL
    hull_point := fun _ => 0
    backoff_status := SolveStatus.NORMAL
    backoff_objVal := 1 }

/-- Witness configuration record for claim C1. -/
def cfgW1 : Config :=
  { eps := 1/2
    cutThreshold := 1/100
    backoffTOL := 1/100000000
    postProcess := true }

/-- Witness final state for claim C1: the run appended the normal-vector
cut with body `-y`. -/
def resW1 : LoopState 1 :=
  { prev_obj := ObjVal.fin 0
    improving := true
    cuts := [{ coeffs := fun _ => -1, const := 0 }]
    xstar := fun _ => 1
    xhull := fun _ => 0 }

lemma nvCut_body {n : Nat} (xhull xstar y : Fin n → ℚ) :
    (nvCut xhull xstar).body y
      = Finset.univ.sum fun i => (xhull i - xstar i) * (y i - xhull i) := by
  unfold nvCut AffCut.body
  rw [← sub_eq_add_neg, ← Finset.sum_sub_distrib]
  exact Finset.sum_congr rfl fun i _ => by ring

lemma paddedCut_body {n : Nat} (c : AffCut n) (p : ℚ) (y : Fin n → ℚ) :
    (paddedCut c p).body y = c.body y + p := by
  simp [paddedCut, AffCut.body, add_assoc]

lemma paddedCut_zero {n : Nat} (c : AffCut n) : paddedCut c 0 = c := by
  simp [paddedCut]

/-- Claim C3 counterexample: for the cut `x ≤ 5` (stored in the source's
`lb <= expr` orientation as `0 ≤ 5 - x`) with measured maximal slack `0.2`
(the auxiliary solve minimizes the body `5 - x` over the hull relaxation
and reports `-1/5`) and tolerance `1e-8`, the code pads the body by
`1/5 + 1e-8`, producing `x ≤ 5.2 + 1e-8` — not `x ≤ 5.2 - 1e-8` as the
claim states. -/
theorem backoff_calculated_claim_fails :
    back_off_constraint_with_calculated_cut_violation (n := 1)
        SolveStatus.NORMAL (-(1/5)) (1/100000000)
        { coeffs := fun _ => -1, const := 5 }
      = Except.ok ({ coeffs := fun _ => -1, const := 5 + (1/5 + 1/100000000) },
          true)
    ∧ ((5 : ℚ) + (1/5 + 1/100000000)) ≠ ((5 : ℚ) + (1/5 - 1/100000000)) := by
  constructor
  · norm_num [back_off_constraint_with_calculated_cut_violation, paddedCut,
      abs_of_nonpos]
  · norm_num

/-- Claim C3 (amended): the auxiliary problem minimizes the cut body over
the hull relaxation (a Pyomo `Objective` defaults to minimization).  When
it solves normally with minimal value `m`, the code computes
`val = m - TOL` and pads the cut body by `abs(val) = TOL - m` exactly when
`val ≤ 0`, leaving the cut unchanged otherwise; so a cut `x ≤ 5` with
maximal slack `0.2` becomes `x ≤ 5.2 + 1e-8`.  Under fixed-tolerance
back-off the body is padded by `TOL` unconditionally, giving `x ≤ 5 + TOL`
as claimed. -/
theorem backoff_calculated_pad_rule {n : Nat} (m TOL : ℚ) (cut : AffCut n) :
    back_off_constraint_with_calculated_cut_violation
        SolveStatus.NORMAL m TOL cut
      = Except.ok ((if m - TOL ≤ 0 then paddedCut cut (TOL - m) else cut),
          true)
    ∧ back_off_constraint_by_fixed_tolerance TOL cut = paddedCut cut TOL := by
  refine ⟨?_, rfl⟩
  by_cases h : m - TOL ≤ 0
  · simp [back_off_constraint_with_calculated_cut_violation, h,
      abs_of_nonpos h, neg_sub]
  · simp [back_off_constraint_with_calculated_cut_violation, h]

/-- Claim C4 is contradicted by the code: when the auxiliary back-off solve
terminates abnormally, line 273 executes
`_restore_objective(instance_rHull, transBlock_rHull, orig_obj)`, and the
name `orig_obj` is undefined in the function and the module, so evaluating
the call's arguments raises `NameError` instead of returning normally with
the separation objective restored. -/
theorem backoff_failure_raises_nameError :
    back_off_constraint_with_calculated_cut_violation (n := 1)
        SolveStatus.NONOPTIMAL 0 (1/100000000)
        { coeffs := fun _ => -1, const := 5 }
      = Except.error (PyError.nameError origObjName) := by
  simp [back_off_constraint_with_calculated_cut_violation]

/-- Claim C10: the hull relaxation is constructed from the original
(untightened) instance.  `tighten_relaxation_callback(instance)` is
computed at line 519 but line 520 passes `instance`, not
`tighter_instance`, to the hull reformulation, so two runs differing only
in the callback build the same hull relaxation. -/
theorem hull_built_from_untightened_instance {α β : Type}
    (create_using : α → β) (t1 t2 : α → α) (inst : α) :
    setup_hull_relaxation create_using t1 inst
      = setup_hull_relaxation create_using t2 inst := rfl

/-- Claim C6: `create_cuts_normal_vector` builds the expression
`Σ (hull_value - target_value) * (linear_var - hull_value)` over the
correspondence triples, and returns exactly the singleton candidate
`[cut >= 0]` iff that expression, evaluated at the target point (the
current values of the linear-relaxation variables at the call site equal
the target parameters), is less than `-TOL`; otherwise it returns `None`.
-/
theorem normal_vector_generator_spec {n : Nat}
    (xrbigm xhull xstar : Fin n → ℚ) (TOL : ℚ) (h : xrbigm = xstar) :
    (∀ y, (nvCut xhull xstar).body y
        = Finset.univ.sum fun i => (xhull i - xstar i) * (y i - xhull i))
    ∧ (create_cuts_normal_vector xrbigm xhull xstar TOL
          = some [nvCut xhull xstar]
        ↔ (Finset.univ.sum fun i => (xhull i - xstar i) * (xstar i - xhull i))
            < -TOL)
    ∧ (create_cuts_normal_vector xrbigm xhull xstar TOL = none
        ↔ ¬ (Finset.univ.sum
              fun i => (xhull i - xstar i) * (xstar i - xhull i)) < -TOL) := by
  subst h
  refine ⟨nvCut_body _ _, ?_, ?_⟩
  · simp only [create_cuts_normal_vector]
    rw [nvCut_body]
    split
    · next hc => simp [hc]
    · next hc => simp [hc]
  · simp only [create_cuts_normal_vector]
    rw [nvCut_body]
    split
    · next hc => simp [hc]
    · next hc => simp [hc]

/-- Witness for claim C6 at the spec's test point: with a two-variable
correspondence, candidate `x* = (2,2)` and separating point
`xhat = (1,1)`, the evaluated body is `-2 < -1/100`, so the generator
emits the single cut. -/
theorem normal_vector_generator_spec_witness :
    create_cuts_normal_vector (n := 2) (fun _ => 2) (fun _ => 1) (fun _ => 2)
        (1/100)
      = some [nvCut (fun _ => 1) (fun _ => 2)] :=
  ((normal_vector_generator_spec (fun _ => 2) (fun _ => 1) (fun _ => 2)
      (1/100) rfl).2.1).mpr (by norm_num [Fin.sum_univ_two])

lemma fmeStep_inv (threshold : ℚ) (hθ : 0 ≤ threshold)
    (processed : List FCut) (acc : ℚ × Option FCut) (d : FCut)
    (h : FmeInv threshold processed acc) :
    FmeInv threshold (processed ++ [d]) (fmeStep threshold acc d) := by
  obtain ⟨hnone, hsome⟩ := h
  unfold fmeStep
  split
  · next hsat =>
    constructor
    · intro h2
      obtain ⟨ha, hb⟩ := hnone h2
      refine ⟨ha, fun c hc hviol => ?_⟩
      rcases List.mem_append.mp hc with hc | hc
      · exact hb c hc hviol
      · rw [List.mem_singleton] at hc; subst hc
        exact absurd hviol (not_lt.mpr hsat)
    · intro b hb
      obtain ⟨h1, h2, h3, h4, h5⟩ := hsome b hb
      refine ⟨List.mem_append_left _ h1, h2, h3, h4, fun c hc hviol => ?_⟩
      rcases List.mem_append.mp hc with hc | hc
      · exact h5 c hc hviol
      · rw [List.mem_singleton] at hc; subst hc
        exact absurd hviol (not_lt.mpr hsat)
  · next hsat =>
    have hviol_d : d.bodyAtStar < d.lb := not_le.mp hsat
    split
    · next hcond =>
      obtain ⟨hθm, haccm⟩ := hcond
      constructor
      · intro h2; exact absurd h2 (by simp)
      · intro b hb
        rw [Option.some.injEq] at hb
        subst hb
        refine ⟨List.mem_append_right _ (List.mem_singleton.mpr rfl),
          hviol_d, hθm, rfl, fun c hc hviol => ?_⟩
        rcases List.mem_append.mp hc with hc | hc
        · cases hacc2 : acc.2 with
          | none =>
            obtain ⟨ha, hb2⟩ := hnone hacc2
            have hle := hb2 c hc hviol
            linarith
          | some b0 =>
            obtain ⟨_, _, _, h4, h5⟩ := hsome b0 hacc2
            have hle := h5 c hc hviol
            rw [h4] at haccm
            linarith
        · rw [List.mem_singleton] at hc; subst hc
          exact le_refl _
    · next hcond =>
      rw [not_and, not_lt] at hcond
      constructor
      · intro h2
        obtain ⟨ha, hb⟩ := hnone h2
        refine ⟨ha, fun c hc hviol => ?_⟩
        rcases List.mem_append.mp hc with hc | hc
        · exact hb c hc hviol
        · rw [List.mem_singleton] at hc; subst hc
          by_contra hgt
          push_neg at hgt
          have hle := hcond hgt
          rw [ha] at hle
          linarith
      · intro b hb
        obtain ⟨h1, h2, h3, h4, h5⟩ := hsome b hb
        refine ⟨List.mem_append_left _ h1, h2, h3, h4, fun c hc hviol => ?_⟩
        rcases List.mem_append.mp hc with hc | hc
        · exact h5 c hc hviol
        · rw [List.mem_singleton] at hc; subst hc
          by_contra hgt
          push_neg at hgt
          have hθd := lt_trans h3 hgt
          have hle := hcond hθd
          rw [h4] at hle
          linarith

lemma fmeFold_inv (threshold : ℚ) (hθ : 0 ≤ threshold) :
    ∀ (l processed : List FCut) (acc : ℚ × Option FCut),
      FmeInv threshold processed acc →
      FmeInv threshold (processed ++ l) (List.foldl (fmeStep threshold) acc l)
    := by
  intro l
  induction l with
  | nil => intro processed acc h; simpa using h
  | cons d l ih =>
    intro processed acc h
    have h3 := ih (processed ++ [d]) (fmeStep threshold acc d)
      (fmeStep_inv threshold hθ processed acc d h)
    simpa [List.append_assoc] using h3

/-- Claim C7: `create_cuts_fme` ends by scanning the translated projected
constraints; it returns `None` or a singleton, the returned cut is a
constraint violated at `x*` whose margin `lb - body` is maximal among all
violated constraints and strictly exceeds the configured threshold, and if
no violated constraint exceeds the threshold it returns `None`.  The
hypothesis `0 ≤ threshold` reflects the `NonNegativeFloat` domain of
`cut_filtering_threshold`. -/
theorem fme_cut_selection (cuts : List FCut) (threshold : ℚ)
    (hθ : 0 ≤ threshold) :
    (∀ res, create_cuts_fme_select cuts threshold = some res →
      ∃ b, res = [b] ∧ b ∈ cuts ∧ b.bodyAtStar < b.lb ∧
        threshold < b.margin ∧
        ∀ c ∈ cuts, c.bodyAtStar < c.lb → c.margin ≤ b.margin)
    ∧ ((∀ c ∈ cuts, c.bodyAtStar < c.lb → c.margin ≤ threshold) →
        create_cuts_fme_select cuts threshold = none) := by
  have hinv0 : FmeInv threshold [] (0, none) := by
    constructor
    · intro _; exact ⟨rfl, by simp⟩
    · intro b hb; simp at hb
  have hinv := fmeFold_inv threshold hθ cuts.reverse [] (0, none) hinv0
  rw [List.nil_append] at hinv
  obtain ⟨hnone, hsome⟩ := hinv
  constructor
  · intro res hres
    unfold create_cuts_fme_select at hres
    cases hfold : (List.foldl (fmeStep threshold) (0, none) cuts.reverse).2 with
    | none =>
      rw [hfold] at hres
      exact Option.noConfusion hres
    | some b =>
      rw [hfold] at hres
      have hres2 : some [b] = some res := hres
      rw [Option.some.injEq] at hres2
      obtain ⟨h1, h2, h3, _, h5⟩ := hsome b hfold
      exact ⟨b, hres2.symm, List.mem_reverse.mp h1, h2, h3,
        fun c hc hviol => h5 c (List.mem_reverse.mpr hc) hviol⟩
  · intro hall
    unfold create_cuts_fme_select
    cases hfold : (List.foldl (fmeStep threshold) (0, none) cuts.reverse).2 with
    | none => rfl
    | some b =>
      obtain ⟨h1, h2, h3, _, _⟩ := hsome b hfold
      have hle := hall b (List.mem_reverse.mp h1) h2
      linarith

/-- Witness for claim C7: a list with one satisfied constraint and one
violated constraint whose margin `1/1000` does not exceed the threshold
`1/100` yields no cut. -/
theorem fme_cut_selection_witness :
    create_cuts_fme_select
        [{ lb := 0, bodyAtStar := 5 }, { lb := 1, bodyAtStar := 999/1000 }]
        (1/100) = none := by
  refine (fme_cut_selection _ _ (by norm_num)).2 ?_
  intro c hc hviol
  rcases List.mem_cons.mp hc with rfl | hc
  · norm_num at hviol
  · rw [List.mem_singleton] at hc; subst hc
    norm_num [FCut.margin]

/-- Claim C8: each round the driver computes
`obj_diff = prev_obj - rBigM_objVal` (with `prev_obj` initialized to
`+inf`) and sets `improving` to true iff the improvement is infinite, or
`|current| < 1` and `|improvement| > eps`, or `|current| >= 1` and
`|improvement / previous| > eps`; and when `improving` is false after cut
generation (the rBigM solve was normal and the convergence test did not
fire) the loop exits `STALLED` with the cut store unchanged. -/
theorem objective_improvement_test :
    (∀ (prev : ObjVal) (cur eps : ℚ),
        improvingUpdate prev cur eps = true ↔ ImprovingSpec prev cur eps)
    ∧ (∀ (n : Nat) (cfg : Config) (o : RoundOracle n) (s : LoopState n),
        o.rBigM_status = SolveStatus.NORMAL →
        ¬ |sepObjValue o.hull_point o.rBigM_point| < cfg.eps →
        improvingUpdate s.prev_obj o.rBigM_objVal cfg.eps = false →
        loopStep cfg o s
          = Except.ok
              ({ s with
                  xstar := o.rBigM_point
                  xhull := o.hull_point
                  improving := false },
                LoopExit.STALLED)) := by
  constructor
  · intro prev cur eps
    cases prev with
    | pinf =>
      simp [improvingUpdate, ImprovingSpec, ObjVal.sub, ObjVal.isinf]
    | fin p =>
      simp only [improvingUpdate, ImprovingSpec, ObjVal.sub, ObjVal.isinf,
        Bool.false_or, ObjVal.fin.injEq, Bool.false_eq_true, false_or,
        exists_eq_left']
      by_cases hcur : |cur| < 1
      · simp only [if_pos hcur, decide_eq_true_eq]
        constructor
        · intro hA; exact Or.inl ⟨hcur, hA⟩
        · rintro (⟨_, hA⟩ | ⟨hge, _⟩)
          · exact hA
          · exact absurd hge (not_le.mpr hcur)
      · simp only [if_neg hcur, decide_eq_true_eq]
        constructor
        · intro hB; exact Or.inr ⟨not_lt.mp hcur, hB⟩
        · rintro (⟨hlt, _⟩ | ⟨_, hB⟩)
          · exact absurd hlt hcur
          · exact hB
  · intro n cfg o s h1 h2 h3
    cases hc : create_cuts_normal_vector o.rBigM_point o.hull_point
        o.rBigM_point cfg.cutThreshold with
    | none => simp [loopStep, h1, h2, h3, hc]
    | some cs => simp [loopStep, h1, h2, h3, hc]

/-- Witness for claim C8: the improvement test fires on an infinite
improvement, and with zero improvement over a finite previous objective
the round exits `STALLED`. -/
theorem objective_improvement_test_witness :
    improvingUpdate ObjVal.pinf 3 (1/100) = true
    ∧ loopStep cfgW8 oW8 sW8
        = Except.ok
            ({ sW8 with
                xstar := oW8.rBigM_point
                xhull := oW8.hull_point
                improving := false },
              LoopExit.STALLED) :=
  ⟨(objective_improvement_test.1 ObjVal.pinf 3 (1/100)).mpr (Or.inl rfl),
    objective_improvement_test.2 1 cfgW8 oW8 sW8 rfl
      (by norm_num [sepObjValue, Fin.sum_univ_one, oW8, cfgW8])
      (by norm_num [improvingUpdate, ObjVal.sub, ObjVal.isinf, sW8, oW8,
        cfgW8])⟩

/-- Claim C5: at any round, if the rBigM solve is normal and the minimized
separation distance is below `eps`, the round exits `CONVERGED` without
invoking the cut generator and without touching the cut store: the state
returned carries exactly the cuts it entered with. -/
theorem convergence_exit_no_cut {n : Nat} (cfg : Config) (o : RoundOracle n)
    (s : LoopState n) (h1 : o.rBigM_status = SolveStatus.NORMAL)
    (h2 : |sepObjValue o.hull_point o.rBigM_point| < cfg.eps) :
    loopStep cfg o s
      = Except.ok
          ({ s with
              xstar := o.rBigM_point
              xhull := o.hull_point
              improving := improvingUpdate s.prev_obj o.rBigM_objVal
                cfg.eps },
            LoopExit.CONVERGED)
    ∧ ({ s with
          xstar := o.rBigM_point
          xhull := o.hull_point
          improving := improvingUpdate s.prev_obj o.rBigM_objVal
            cfg.eps } : LoopState n).cuts = s.cuts := by
  refine ⟨?_, rfl⟩
  simp [loopStep, h1, h2]

/-- Witness for claim C5: with separation distance `0 < 1/2` the round
exits `CONVERGED` and the cut store is unchanged. -/
theorem convergence_exit_no_cut_witness :
    loopStep cfgW5 oW5 (initState 1) = Except.ok (resW5, LoopExit.CONVERGED)
    ∧ resW5.cuts = (initState 1).cuts :=
  convergence_exit_no_cut cfgW5 oW5 (initState 1) rfl
    (by norm_num [sepObjValue, Fin.sum_univ_one, oW5, cfgW5])

/-- Claim C2 is contradicted by the code: line 701 discards the result
object of the hull separation solve, and line 702 re-checks the stale
rBigM `results` object (which is `NORMAL` at that point, or the round
would already have exited).  So in a round whose separation solve
terminates abnormally (`oC2.hull_status = NONOPTIMAL`) the loop does not
exit `SOLVE_FAILED`: it proceeds, generates a cut from the
solver-populated hull point, appends it, and keeps iterating. -/
theorem separation_failure_check_uses_stale_results :
    oC2.hull_status = SolveStatus.NONOPTIMAL
    ∧ loopStep cfgC2 oC2 (initState 1) = Except.ok (resC2, LoopExit.ITERATING)
    ∧ resC2.cuts.length = 1 := by
  refine ⟨rfl, ?_, rfl⟩
  norm_num [loopStep, cfgC2, oC2, initState, resC2, improvingUpdate,
    ObjVal.sub, ObjVal.isinf, sepObjValue, create_cuts_normal_vector, nvCut,
    AffCut.body, appendProcessed, Fin.sum_univ_one]

lemma appendProcessed_append {n : Nat} (cfg : Config) (o : RoundOracle n) :
    ∀ (cs store store2 : List (AffCut n)),
      appendProcessed cfg o store cs = Except.ok store2 →
      ∃ t, store2 = store ++ t := by
  intro cs
  induction cs with
  | nil =>
    intro store store2 h
    simp only [appendProcessed, Except.ok.injEq] at h
    exact ⟨[], by simp [h]⟩
  | cons c cs ih =>
    intro store store2 h
    simp only [appendProcessed] at h
    split at h
    · split at h
      · exact absurd h (by simp)
      · next c2 _ _ =>
        obtain ⟨t, ht⟩ := ih _ _ h
        exact ⟨c2 :: t, by simp [ht]⟩
    · obtain ⟨t, ht⟩ := ih _ _ h
      exact ⟨c :: t, by simp [ht]⟩

lemma loopStep_cuts_append {n : Nat} (cfg : Config) (o : RoundOracle n)
    (s s1 : LoopState n) (k : LoopExit)
    (h : loopStep cfg o s = Except.ok (s1, k)) :
    ∃ t, s1.cuts = s.cuts ++ t := by
  by_cases h1 : o.rBigM_status ≠ SolveStatus.NORMAL
  · simp only [loopStep, if_pos h1, Except.ok.injEq, Prod.mk.injEq] at h
    exact ⟨[], by simp [← h.1]⟩
  · by_cases h2 : |sepObjValue o.hull_point o.rBigM_point| < cfg.eps
    · simp only [loopStep, if_neg h1, if_pos h2, Except.ok.injEq,
        Prod.mk.injEq] at h
      exact ⟨[], by simp [← h.1]⟩
    · cases hc : create_cuts_normal_vector o.rBigM_point o.hull_point
          o.rBigM_point cfg.cutThreshold with
      | none =>
        simp only [loopStep, if_neg h1, if_neg h2, hc, Except.ok.injEq,
          Prod.mk.injEq] at h
        exact ⟨[], by simp [← h.1]⟩
      | some cs =>
        by_cases h3 : improvingUpdate s.prev_obj o.rBigM_objVal cfg.eps
            = false
        · simp only [loopStep, if_neg h1, if_neg h2, hc, h3, if_pos,
            Except.ok.injEq, Prod.mk.injEq] at h
          exact ⟨[], by simp [← h.1]⟩
        · cases hap : appendProcessed cfg o s.cuts cs with
          | error e =>
            simp only [loopStep, if_neg h1, if_neg h2, hc, h3, hap] at h
            simp at h
          | ok store =>
            simp only [loopStep, if_neg h1, if_neg h2, hc, h3, hap,
              Bool.true_eq_false, if_false, Except.ok.injEq,
              Prod.mk.injEq] at h
            obtain ⟨t, ht⟩ := appendProcessed_append cfg o _ _ _ hap
            exact ⟨t, by rw [← h.1]; exact ht⟩

lemma runLoop_cuts_append {n : Nat} (cfg : Config) :
    ∀ (os : List (RoundOracle n)) (s sf : LoopState n) (k : LoopExit),
      runLoop cfg os s = Except.ok (sf, k) → ∃ t, sf.cuts = s.cuts ++ t := by
  intro os
  induction os with
  | nil =>
    intro s sf k h
    simp only [runLoop, Except.ok.injEq, Prod.mk.injEq] at h
    exact ⟨[], by simp [← h.1]⟩
  | cons o os ih =>
    intro s sf k h
    simp only [runLoop] at h
    split at h
    · simp only [Except.ok.injEq, Prod.mk.injEq] at h
      exact ⟨[], by simp [← h.1]⟩
    · split at h
      · exact absurd h (by simp)
      · next s1 k1 hstep =>
        split at h
        · obtain ⟨t1, ht1⟩ := loopStep_cuts_append cfg o s s1 k1 hstep
          obtain ⟨t2, ht2⟩ := ih s1 sf _ h
          exact ⟨t1 ++ t2, by rw [ht2, ht1, List.append_assoc]⟩
        · simp only [Except.ok.injEq, Prod.mk.injEq] at h
          obtain ⟨t1, ht1⟩ := loopStep_cuts_append cfg o s s1 k1 hstep
          exact ⟨t1, by rw [← h.1]; exact ht1⟩

/-- Claim C9: over an entire run of the separation driver the cut store
only grows: the store of any earlier state is a prefix of the store of the
final state, each accepted cut having been appended at the next free index
(list order is index order in the model, and the one-time back-off pad is
applied to the new cut before it becomes visible in the store). -/
theorem cut_store_append_only {n : Nat} (cfg : Config)
    (os : List (RoundOracle n)) (s sf : LoopState n) (k : LoopExit)
    (hrun : runLoop cfg os s = Except.ok (sf, k)) :
    List.take s.cuts.length sf.cuts = s.cuts := by
  obtain ⟨t, ht⟩ := runLoop_cuts_append cfg os s sf k hrun
  rw [ht]
  exact List.take_left _ _

/-- Witness for claim C9: after a one-round run that appends a cut, the
original store is still the prefix of the final store. -/
theorem cut_store_append_only_witness :
    List.take (List.length sW9.cuts) resW9.cuts = sW9.cuts :=
  cut_store_append_only cfgW9 [oW9] sW9 resW9 LoopExit.ITERATING
    (by norm_num [runLoop, loopStep, cfgW9, oW9, sW9, resW9, improvingUpdate,
      ObjVal.sub, ObjVal.isinf, sepObjValue, create_cuts_normal_vector, nvCut,
      AffCut.body, appendProcessed,
      back_off_constraint_with_calculated_cut_violation, paddedCut,
      abs_of_nonpos, Fin.sum_univ_one])

/-- Obtuse-angle property of the exact separation minimizer: if `K` is
convex and `xhat` minimizes the separation objective against `xstar` over
`K`, then the normal-vector cut built from `(xhat, xstar)` is nonnegative
at every point of `K`. -/
lemma nv_cut_sound {n : Nat} {K : Set (Fin n → ℚ)} (hK : ConvexQ K)
    {xstar xhat : Fin n → ℚ} (hmin : SepMinimizer K xstar xhat)
    {y : Fin n → ℚ} (hy : y ∈ K) :
    0 ≤ (nvCut xhat xstar).body y := by
  rw [nvCut_body]
  by_contra hneg
  push_neg at hneg
  set c := Finset.univ.sum (fun i => (xhat i - xstar i) * (y i - xhat i))
    with hc
  set q := Finset.univ.sum (fun i => (y i - xhat i) ^ 2) with hq
  have hq0 : 0 ≤ q := Finset.sum_nonneg fun i _ => sq_nonneg _
  have key : ∀ t : ℚ, 0 ≤ t → t ≤ 1 → 0 ≤ 2 * t * c + t ^ 2 * q := by
    intro t ht0 ht1
    have hmem := hK xhat hmin.1 y hy t ht0 ht1
    have hle := hmin.2 _ hmem
    have expand : sepObjValue (fun i => (1 - t) * xhat i + t * y i) xstar
        = sepObjValue xhat xstar + (2 * t * c + t ^ 2 * q) := by
      rw [hc, hq]
      simp only [sepObjValue]
      rw [Finset.mul_sum, Finset.mul_sum, ← Finset.sum_add_distrib,
        ← Finset.sum_add_distrib]
      exact Finset.sum_congr rfl fun i _ => by ring
    rw [expand] at hle
    linarith
  rcases eq_or_lt_of_le hq0 with hq_eq | hq_pos
  · have hsum0 : Finset.univ.sum (fun i => (y i - xhat i) ^ 2) = 0 := by
      rw [← hq]; exact hq_eq.symm
    have hall := (Finset.sum_eq_zero_iff_of_nonneg
      (fun i _ => sq_nonneg (y i - xhat i))).mp hsum0
    have hc0 : c = 0 := by
      rw [hc]
      apply Finset.sum_eq_zero
      intro i hi
      have h2 : y i - xhat i = 0 :=
        pow_eq_zero_iff two_ne_zero |>.mp (hall i hi)
      rw [h2, mul_zero]
    linarith
  · set t0 := min 1 (-c / q) with ht0def
    have ht0pos : 0 < t0 :=
      lt_min one_pos (div_pos (neg_pos.mpr hneg) hq_pos)
    have ht0le1 : t0 ≤ 1 := min_le_left _ _
    have h1 : t0 * q ≤ -c := by
      have ht0le : t0 ≤ -c / q := min_le_right _ _
      rw [le_div_iff₀ hq_pos] at ht0le
      exact ht0le
    have h2 := key t0 ht0pos.le ht0le1
    have h3 : t0 * (t0 * q) ≤ t0 * (-c) :=
      mul_le_mul_of_nonneg_left h1 ht0pos.le
    have h4 : t0 * c < 0 := mul_neg_of_pos_of_neg ht0pos hneg
    have h5 : t0 ^ 2 * q = t0 * (t0 * q) := by ring
    nlinarith

lemma backoff_ok_padded {n : Nat} (status : SolveStatus) (objVal TOL : ℚ)
    (cut c2 : AffCut n) (b : Bool)
    (h : back_off_constraint_with_calculated_cut_violation status objVal TOL
        cut = Except.ok (c2, b)) :
    ∃ p, 0 ≤ p ∧ c2 = paddedCut cut p := by
  simp only [back_off_constraint_with_calculated_cut_violation] at h
  split at h
  · exact absurd h (by simp)
  · split at h
    · simp only [Except.ok.injEq, Prod.mk.injEq] at h
      exact ⟨_, abs_nonneg _, h.1.symm⟩
    · simp only [Except.ok.injEq, Prod.mk.injEq] at h
      exact ⟨0, le_refl 0, by rw [paddedCut_zero, h.1]⟩

lemma create_nv_eq_some {n : Nat} (a b c : Fin n → ℚ) (TOL : ℚ)
    (cs : List (AffCut n))
    (h : create_cuts_normal_vector a b c TOL = some cs) : cs = [nvCut b c]
    := by
  simp only [create_cuts_normal_vector] at h
  split at h
  · simp only [Option.some.injEq] at h
    exact h.symm
  · exact absurd h (by simp)

lemma appendProcessed_mem {n : Nat} (cfg : Config) (o : RoundOracle n) :
    ∀ (cs store store2 : List (AffCut n)),
      appendProcessed cfg o store cs = Except.ok store2 →
      ∀ c ∈ store2, c ∈ store ∨ ∃ d ∈ cs, ∃ p, 0 ≤ p ∧ c = paddedCut d p
    := by
  intro cs
  induction cs with
  | nil =>
    intro store store2 h c hmem
    simp only [appendProcessed, Except.ok.injEq] at h
    exact Or.inl (h ▸ hmem)
  | cons d cs ih =>
    intro store store2 h c hmem
    simp only [appendProcessed] at h
    split at h
    · split at h
      · exact absurd h (by simp)
      · next c2 _ hback =>
        rcases ih _ _ h c hmem with hin | ⟨d2, hd2, p, hp, hcp⟩
        · rcases List.mem_append.mp hin with hin | hin
          · exact Or.inl hin
          · rw [List.mem_singleton] at hin
            obtain ⟨p, hp, hcp⟩ :=
              backoff_ok_padded o.backoff_status o.backoff_objVal
                cfg.backoffTOL d c2 _ hback
            exact Or.inr ⟨d, List.mem_cons_self d cs, p, hp, hin ▸ hcp⟩
        · exact Or.inr ⟨d2, List.mem_cons_of_mem d hd2, p, hp, hcp⟩
    · rcases ih _ _ h c hmem with hin | ⟨d2, hd2, p, hp, hcp⟩
      · rcases List.mem_append.mp hin with hin | hin
        · exact Or.inl hin
        · rw [List.mem_singleton] at hin
          exact Or.inr ⟨d, List.mem_cons_self d cs, 0, le_refl 0,
            by rw [paddedCut_zero]; exact hin⟩
      · exact Or.inr ⟨d2, List.mem_cons_of_mem d hd2, p, hp, hcp⟩

lemma loopStep_new_cuts {n : Nat} (cfg : Config) (o : RoundOracle n )
    (s s1 : LoopState n) (k : LoopExit)
    (h : loopStep cfg o s = Except.ok (s1, k)) :
    ∀ c ∈ s1.cuts, c ∈ s.cuts ∨
      ∃ p, 0 ≤ p ∧ c = paddedCut (nvCut o.hull_point o.rBigM_point) p := by
  by_cases h1 : o.rBigM_status ≠ SolveStatus.NORMAL
  · simp only [loopStep, if_pos h1, Except.ok.injEq, Prod.mk.injEq] at h
    intro c hmem
    rw [← h.1] at hmem
    exact Or.inl hmem
  · by_cases h2 : |sepObjValue o.hull_point o.rBigM_point| < cfg.eps
    · simp only [loopStep, if_neg h1, if_pos h2, Except.ok.injEq,
        Prod.mk.injEq] at h
      intro c hmem
      rw [← h.1] at hmem
      exact Or.inl hmem
    · cases hc : create_cuts_normal_vector o.rBigM_point o.hull_point
          o.rBigM_point cfg.cutThreshold with
      | none =>
        simp only [loopStep, if_neg h1, if_neg h2, hc, Except.ok.injEq,
          Prod.mk.injEq] at h
        intro c hmem
        rw [← h.1] at hmem
        exact Or.inl hmem
      | some cs =>
        by_cases h3 : improvingUpdate s.prev_obj o.rBigM_objVal cfg.eps
            = false
        · simp only [loopStep, if_neg h1, if_neg h2, hc, h3, if_pos,
            Except.ok.injEq, Prod.mk.injEq] at h
          intro c hmem
          rw [← h.1] at hmem
          exact Or.inl hmem
        · cases hap : appendProcessed cfg o s.cuts cs with
          | error e =>
            simp only [loopStep, if_neg h1, if_neg h2, hc, h3, hap] at h
            simp at h
          | ok store =>
            simp only [loopStep, if_neg h1, if_neg h2, hc, h3, hap,
              Bool.true_eq_false, if_false, Except.ok.injEq,
              Prod.mk.injEq] at h
            intro c hmem
            rw [← h.1] at hmem
            rcases appendProcessed_mem cfg o cs s.cuts store hap c hmem with
              hin | ⟨d, hd, p, hp, hcp⟩
            · exact Or.inl hin
            · have hd2 : d = nvCut o.hull_point o.rBigM_point := by
                have := create_nv_eq_some _ _ _ _ _ hc
                rw [this, List.mem_singleton] at hd
                exact hd
              exact Or.inr ⟨p, hp, by rw [hcp, hd2]⟩

lemma runLoop_cuts_valid {n : Nat} (K F : Set (Fin n → ℚ)) (cfg : Config)
    (hK : ConvexQ K) (hFK : ∀ y ∈ F, y ∈ K) :
    ∀ (os : List (RoundOracle n)),
      (∀ o ∈ os, SepMinimizer K o.rBigM_point o.hull_point) →
      ∀ (s sf : LoopState n) (k : LoopExit),
        (∀ c ∈ s.cuts, ∀ y ∈ F, 0 ≤ c.body y) →
        runLoop cfg os s = Except.ok (sf, k) →
        ∀ c ∈ sf.cuts, ∀ y ∈ F, 0 ≤ c.body y := by
  intro os
  induction os with
  | nil =>
    intro _ s sf k hinit hrun
    simp only [runLoop, Except.ok.injEq, Prod.mk.injEq] at hrun
    exact hrun.1 ▸ hinit
  | cons o os ih =>
    intro horacle s sf k hinit hrun
    simp only [runLoop] at hrun
    split at hrun
    · simp only [Except.ok.injEq, Prod.mk.injEq] at hrun
      exact hrun.1 ▸ hinit
    · split at hrun
      · exact absurd hrun (by simp)
      · next s1 k1 hstep =>
        have hs1 : ∀ c ∈ s1.cuts, ∀ y ∈ F, 0 ≤ c.body y := by
          intro c hcmem y hy
          rcases loopStep_new_cuts cfg o s s1 k1 hstep c hcmem with
            hold | ⟨p, hp, rfl⟩
          · exact hinit c hold y hy
          · rw [paddedCut_body]
            have hsound := nv_cut_sound hK
              (horacle o (List.mem_cons_self o os)) (hFK y hy)
            linarith
        split at hrun
        · exact ih (fun o2 ho2 => horacle o2 (List.mem_cons_of_mem o ho2))
            s1 sf k hs1 hrun
        · simp only [Except.ok.injEq, Prod.mk.injEq] at hrun
          exact hrun.1 ▸ hs1

/-- Claim C1: soundness of the cuts.  For a disjunctive program whose hull
relaxation has a convex feasible region `K` containing every feasible
point of the original program (set `F`), if every round's separation
solve returns an exact minimizer of the separation objective over `K`,
then every cut held by the linear relaxation when the run ends — each one
a back-off-padded normal-vector cut — is satisfied (body nonnegative) at
every feasible point of the original program, so no added cut removes a
feasible solution. -/
theorem every_added_cut_sound {n : Nat} (K F : Set (Fin n → ℚ))
    (cfg : Config) (os : List (RoundOracle n)) (s sf : LoopState n)
    (k : LoopExit) (hK : ConvexQ K) (hFK : ∀ y ∈ F, y ∈ K)
    (horacle : ∀ o ∈ os, SepMinimizer K o.rBigM_point o.hull_point)
    (hinit : ∀ c ∈ s.cuts, ∀ y ∈ F, 0 ≤ c.body y)
    (hrun : runLoop cfg os s = Except.ok (sf, k)) :
    ∀ c ∈ sf.cuts, ∀ y ∈ F, 0 ≤ c.body y :=
  runLoop_cuts_valid K F cfg hK hFK os horacle s sf k hinit hrun

/-- Witness for claim C1: the cut appended by the concrete one-round run is
satisfied at the feasible point `z0W`. -/
theorem every_added_cut_sound_witness :
    0 ≤ AffCut.body { coeffs := fun _ => -1, const := 0 } z0W :=
  every_added_cut_sound KW KW cfgW1 [oW1] (initState 1) resW1
    LoopExit.ITERATING
    (by
      intro x hx y hy t ht0 ht1
      simp only [KW, Set.mem_singleton_iff] at hx hy ⊢
      subst hx; subst hy
      exact funext fun i => by simp [z0W])
    (fun y hy => hy)
    (by
      intro o ho
      rw [List.mem_singleton] at ho; subst ho
      refine ⟨rfl, fun z hz => ?_⟩
      simp only [KW, Set.mem_singleton_iff] at hz
      subst hz
      exact le_refl _)
    (by simp [initState])
    (by norm_num [runLoop, loopStep, cfgW1, oW1, initState, resW1,
      improvingUpdate, ObjVal.sub, ObjVal.isinf, sepObjValue,
      create_cuts_normal_vector, nvCut, AffCut.body, appendProcessed,
      back_off_constraint_with_calculated_cut_violation, paddedCut,
      Fin.sum_univ_one])
    { coeffs := fun _ => -1, const := 0 }
    (List.mem_singleton.mpr rfl) z0W rfl

end CuttingPlane
